import Mathlib

/-!
# B-tree node operations of `bTree.go`

A shallow embedding of the node type `BtreeNode` and of its three methods
`NewBTREENode`, `InsertNonFull` and `SplitCHILD`.

* A value of the Lean type `BtreeNode` is a Go value of type `*BtreeNode`: either the
  nil pointer or a pointer to a struct with the fields `t`, `keys`, `children`, `isLeaf`.
  The heap is modelled as a tree: a child is owned by one parent and is reached through
  one slot of one `children` slice only.
* Go `int` keys are compared only, never added, so they are embedded as `Int`.
* A method that mutates its receiver becomes a function that returns the receiver after
  the call. A runtime failure (index out of range, nil dereference) is a `Panic`; the state
  returned with it is the heap at the moment of the failure, so that writes made before the
  failure stay visible.
-/

namespace BTree

/-- Runtime failures of the Go program that the embedded methods can raise. -/
inductive Panic where
  | indexOutOfRange
  | nilDereference
  deriving DecidableEq

/-- A Go value of type `*BtreeNode`: `nil`, or a pointer to a struct with the four fields of
`type BtreeNode struct`. -/
inductive BtreeNode where
  | nil : BtreeNode
  | mk (t : Int) (keys : List Int) (children : List BtreeNode) (isLeaf : Bool) : BtreeNode

namespace BtreeNode

/-- Field `t` (of the nil pointer: 0). -/
def t : BtreeNode → Int
  | nil => 0
  | mk t _ _ _ => t

/-- Field `keys` (of the nil pointer: empty). -/
def keys : BtreeNode → List Int
  | nil => []
  | mk _ ks _ _ => ks

/-- Field `children` (of the nil pointer: empty). -/
def children : BtreeNode → List BtreeNode
  | nil => []
  | mk _ _ cs _ => cs

/-- Field `isLeaf` (of the nil pointer: false). -/
def isLeaf : BtreeNode → Bool
  | nil => false
  | mk _ _ _ l => l

end BtreeNode

open BtreeNode

/-- The state of a `for` loop over `n.keys`: the slice, the loop variable `i` stored as
`i + 1` (the loop leaves with `i = -1` when it runs off the left end), and the failure, if
an index was out of range. -/
structure LoopState where
  keys : List Int
  iSucc : Nat
  panic : Option Panic
  deriving DecidableEq

/-- The store `n.keys[i] = v` of Go: the slice after the write, or `none` when `i` is out of
range. -/
def storeKey (ks : List Int) (i : Nat) (v : Int) : Option (List Int) :=
  if i < ks.length then some (ks.set i v) else none

/-- The leaf loop `for i >= 0 && key < n.keys[i] { n.keys[i+1] = n.keys[i]; i-- }`.
The argument is `i + 1`: at `0` the test `i >= 0` fails; at `j + 1` the loop reads
`n.keys[j]`, and when `key` is smaller writes it to `n.keys[j+1]` and goes on with `i = j - 1`. -/
def leafLoop (key : Int) : Nat → List Int → LoopState
  | 0, ks => ⟨ks, 0, none⟩
  | j + 1, ks =>
    match ks[j]? with
    | none => ⟨ks, j + 1, some Panic.indexOutOfRange⟩
    | some v =>
      if key < v then
        match storeKey ks (j + 1) v with
        | none => ⟨ks, j + 1, some Panic.indexOutOfRange⟩
        | some ks1 => leafLoop key j ks1
      else ⟨ks, j + 1, none⟩

/-- The internal-node loop `for i >= 0 && key < n.keys[i] { i-- }`, with `i + 1` as the
argument and in the result, as in `leafLoop`. -/
def childLoop (key : Int) : Nat → List Int → LoopState
  | 0, ks => ⟨ks, 0, none⟩
  | j + 1, ks =>
    match ks[j]? with
    | none => ⟨ks, j + 1, some Panic.indexOutOfRange⟩
    | some v =>
      if key < v then childLoop key j ks
      else ⟨ks, j + 1, none⟩

/-- The result of a call of `InsertNonFull`: the receiver after the call and how the call
ended (`none`: it returned normally). -/
structure Outcome where
  node : BtreeNode
  panic : Option Panic

mutual
/-- Method `InsertNonFull` of `bTree.go` (lines 45-69): the receiver after the call and the
way the call ended. The leaf branch appends a slot, shifts and stores the key; the other
branch only computes the child index; both then reach the call
`n.children[i].InsertNonFull(key)` that ends the body. -/
def InsertNonFull : BtreeNode → Int → Outcome
  | .nil, _ => ⟨.nil, some Panic.nilDereference⟩
  | .mk t ks cs true, key =>
    -- i := len(n.keys) - 1; n.keys = append(n.keys, 0)
    let s := leafLoop key ks.length (ks ++ [0])
    match s.panic with
    | some p => ⟨.mk t s.keys cs true, some p⟩
    | none =>
      -- n.keys[i+1] = key
      match storeKey s.keys s.iSucc key with
      | none => ⟨.mk t s.keys cs true, some Panic.indexOutOfRange⟩
      | some ks1 =>
        -- n.children[i].InsertNonFull(key), with i = s.iSucc - 1
        match s.iSucc with
        | 0 => ⟨.mk t ks1 cs true, some Panic.indexOutOfRange⟩
        | i + 1 =>
          let r := insertChild cs i key
          ⟨.mk t ks1 r.1 true, r.2⟩
  | .mk t ks cs false, key =>
    let s := childLoop key ks.length ks
    match s.panic with
    | some p => ⟨.mk t s.keys cs false, some p⟩
    | none =>
      -- i += 1; n.children[i].InsertNonFull(key)
      let r := insertChild cs s.iSucc key
      ⟨.mk t s.keys r.1 false, r.2⟩
/-- The call `n.children[i].InsertNonFull(key)`: the `children` slice after the call and
the way it ended. An index past the end of the slice is an index-out-of-range failure. -/
def insertChild : List BtreeNode → Nat → Int → List BtreeNode × Option Panic
  | [], _, _ => ([], some Panic.indexOutOfRange)
  | c :: cs, 0, key =>
    let r := InsertNonFull c key
    (r.node :: cs, r.panic)
  | c :: cs, i + 1, key =>
    let r := insertChild cs i key
    (c :: r.1, r.2)
end

/-- Method `SplitCHILD` of `bTree.go` (lines 71-73): the receiver after the call and the
returned pointer. The body is `return nil`. -/
def SplitCHILD (n : BtreeNode) (_i : Int) : BtreeNode × BtreeNode :=
  (n, .nil)

/-- Method `NewBTREENode` of `bTree.go` (lines 37-44): the returned pointer. The receiver
`n` is not read. -/
def NewBTREENode (_n : BtreeNode) (t : Int) (isLeaf : Bool) : BtreeNode :=
  .mk t [] [] isLeaf

/-! ## Predicates and observations used to state the properties -/

mutual
/-- Well-formed subtree: no nil pointer, a leaf has no children, an internal node has
`len(keys) + 1` children, and every child is well-formed. -/
def WellFormed : BtreeNode → Prop
  | .nil => False
  | .mk _ _ cs true => cs = []
  | .mk _ ks cs false => cs.length = ks.length + 1 ∧ WellFormedAll cs
/-- Every node of the list is a well-formed subtree. -/
def WellFormedAll : List BtreeNode → Prop
  | [] => True
  | c :: cs => WellFormed c ∧ WellFormedAll cs
end

mutual
/-- In-order traversal of a subtree: child 0, key 0, child 1, key 1, ..., last child. -/
def inorder : BtreeNode → List Int
  | .nil => []
  | .mk _ ks cs _ => interleave cs ks
/-- In-order traversal of a children slice with the keys that follow each child. -/
def interleave : List BtreeNode → List Int → List Int
  | [], ks => ks
  | c :: cs, [] => inorder c ++ interleave cs []
  | c :: cs, k :: ks => inorder c ++ k :: interleave cs ks
end

/-- The bound `lo ≤ x` when there is a lower separator `lo`. -/
def aboveSep (lo : Option Int) (x : Int) : Prop :=
  ∀ l ∈ lo, l ≤ x

mutual
/-- Search-tree ordering invariant, in its non-strict form: in every node the keys are
non-decreasing and every key stored in the subtree `children[i]` lies between the
separators `keys[i-1]` and `keys[i]` (where they exist). -/
def Ordered : BtreeNode → Prop
  | .nil => True
  | .mk _ ks cs _ => ks.Sorted (· ≤ ·) ∧ OrderedChildren cs ks none
/-- The ordering invariant for the children `cs` that stand in front of the separators `ks`,
the separator to the left of the first of them being `lo`. -/
def OrderedChildren : List BtreeNode → List Int → Option Int → Prop
  | [], _, _ => True
  | c :: cs, [], lo =>
    Ordered c ∧ (∀ x ∈ inorder c, aboveSep lo x) ∧ OrderedChildren cs [] lo
  | c :: cs, k :: ks, lo =>
    Ordered c ∧ (∀ x ∈ inorder c, aboveSep lo x ∧ x ≤ k) ∧ OrderedChildren cs ks (some k)
end

mutual
/-- Key-count upper bound of the source header (`atmost 2*t-1 keys`), for every node of
the subtree, each node measured against its own field `t`. -/
def KeysBounded : BtreeNode → Prop
  | .nil => True
  | .mk t ks cs _ => (ks.length : Int) ≤ 2 * t - 1 ∧ KeysBoundedAll cs
/-- The key-count upper bound for every subtree of the list. -/
def KeysBoundedAll : List BtreeNode → Prop
  | [] => True
  | c :: cs => KeysBounded c ∧ KeysBoundedAll cs
end

mutual
/-- The depths of the leaves (nodes whose `isLeaf` is set) of a subtree whose root is at
depth `d`, from left to right. -/
def leafDepths : BtreeNode → Nat → List Nat
  | .nil, _ => []
  | .mk _ _ _ true, d => [d]
  | .mk _ _ cs false, d => leafDepthsAll cs (d + 1)
/-- The depths of the leaves of the subtrees of a list, all rooted at depth `d`. -/
def leafDepthsAll : List BtreeNode → Nat → List Nat
  | [], _ => []
  | c :: cs, d => leafDepths c d ++ leafDepthsAll cs d
end

/-- All leaves of the subtree are at the same depth. -/
def Balanced (n : BtreeNode) : Prop :=
  ∀ d₁ ∈ leafDepths n 0, ∀ d₂ ∈ leafDepths n 0, d₁ = d₂

mutual
/-- Height of a subtree: 0 for the nil pointer, one more than the highest child otherwise. -/
def height : BtreeNode → Nat
  | .nil => 0
  | .mk _ _ cs _ => heightAll cs + 1
/-- The largest height among the subtrees of a list. -/
def heightAll : List BtreeNode → Nat
  | [] => 0
  | c :: cs => max (height c) (heightAll cs)
end

/-! ## The tree layer, which `bTree.go` announces in its header and does not define -/

/-- Modelled from the spec: the tree type, missing from `bTree.go` (the header lists
`BTREE_STRUCTURE` with `T_ORDER_OF_BTREE` and `root`, no `type` follows). A tree holds the
order `t` and owns the root node. -/
structure BTREE where
  t : Int
  root : BtreeNode

/-- Modelled from the spec: the constructor `NewBTREE`, missing from `bTree.go`. A tree of
the given order with a fresh empty leaf root; an order below 2 is refused (`InvalidOrder`,
here `none`). -/
def NewBTREE (t : Int) : Option BTREE :=
  if t < 2 then none else some ⟨t, NewBTREENode .nil t true⟩

/-- Modelled from the spec: the method `Insert`, missing from `bTree.go`. If the root has
`2t-1` keys, a new internal node gets the old root as its only child, `SplitCHILD(0)` is
called on it and it becomes the root; afterwards, in either case, `InsertNonFull(key)` is
called on the root. The two node methods are the ones of `bTree.go`. The result is the tree
at the end of the call and the way the call ended. -/
def Insert (tr : BTREE) (key : Int) : BTREE × Option Panic :=
  match tr.root with
  | .nil => (tr, some Panic.nilDereference)
  | .mk t0 ks cs l =>
    let root1 :=
      if (ks.length : Int) = 2 * tr.t - 1 then
        (SplitCHILD (.mk tr.t [] [.mk t0 ks cs l] false) 0).1
      else .mk t0 ks cs l
    let r := InsertNonFull root1 key
    (⟨tr.t, r.node⟩, r.panic)

mutual
/-- Modelled from the spec: the descent of `Search`, missing from `bTree.go`. At a node, `i`
is the first index with `keys[i] ≥ key`; if `keys[i] == key` the key is found; else a leaf
reports not found; else the search goes on in `children[i]`. -/
def searchNode : BtreeNode → Int → Except Panic Bool
  | .nil, _ => .error Panic.nilDereference
  | .mk _ ks cs l, key =>
    let i := ks.findIdx (fun k => decide (key ≤ k))
    if ks[i]? = some key then .ok true
    else if l then .ok false
    else searchChild cs i key
/-- The step `children[i]` of `searchNode`. -/
def searchChild : List BtreeNode → Nat → Int → Except Panic Bool
  | [], _, _ => .error Panic.indexOutOfRange
  | c :: _, 0, key => searchNode c key
  | _ :: cs, i + 1, key => searchChild cs i key
end

/-- Modelled from the spec: the method `Search`, missing from `bTree.go`: the descent of
`searchNode` started at the root. -/
def Search (tr : BTREE) (key : Int) : Except Panic Bool :=
  searchNode tr.root key

/-- A run of `Insert` calls, one per key and in order. A call that ends in a failure ends
the run: the calls after it are not made. -/
def InsertAll (tr : BTREE) : List Int → BTREE × Option Panic
  | [] => (tr, none)
  | k :: ks =>
    match Insert tr k with
    | (tr1, none) => InsertAll tr1 ks
    | (tr1, some p) => (tr1, some p)

/-- The program `Insert(k₁); ...; Insert(kₙ); Search(k)`: the answer of `Search`, or the
failure that ended the run. -/
def InsertThenSearch (tr : BTREE) (ks : List Int) (k : Int) : Except Panic Bool :=
  match InsertAll tr ks with
  | (tr1, none) => Search tr1 k
  | (_, some p) => .error p

/-! ## The two scanning loops -/

theorem storeKey_middle (pre : List Int) (x v : Int) (post : List Int) :
    storeKey (pre ++ x :: post) pre.length v = some (pre ++ v :: post) := by
  simp [storeKey]

/-- The leaf loop started at the last old key never fails; it stops at an index `m` with
every old key from `m` on larger than `key` and the old key before `m`, if any, not larger;
the old keys from `m` on have moved one slot to the right. -/
theorem leafLoop_spec (key : Int) (pre : List Int) :
    ∀ (x : Int) (post : List Int), ∃ m y, m ≤ pre.length ∧
      leafLoop key pre.length (pre ++ x :: post)
        = ⟨pre.take m ++ y :: (pre.drop m ++ post), m, none⟩ ∧
      (∀ v ∈ pre.drop m, key < v) ∧ (∀ v ∈ (pre.take m).getLast?, v ≤ key) := by
  induction pre using List.reverseRecOn with
  | nil =>
    intro x post
    exact ⟨0, x, le_refl _, by simp [leafLoop], by simp, by simp⟩
  | append_singleton p a ih =>
    intro x post
    have hget : (p ++ [a] ++ x :: post)[p.length]? = some a := by
      rw [List.append_assoc, List.getElem?_append_right (le_refl _)]
      simp
    by_cases hlt : key < a
    · obtain ⟨m, y, hm, hloop, hdrop, hlast⟩ := ih a (a :: post)
      refine ⟨m, y, by simp; omega, ?_, ?_, ?_⟩
      · have hst : storeKey (p ++ [a] ++ x :: post) (p.length + 1) a
            = some (p ++ a :: a :: post) := by
          have := storeKey_middle (p ++ [a]) x a post
          simpa using this
        rw [List.length_append, List.length_singleton, leafLoop, hget]
        simp only [hlt, if_true, hst, hloop]
        rw [List.take_append_of_le_length hm, List.drop_append_of_le_length hm]
        simp
      · intro v hv
        rw [List.drop_append_of_le_length hm, List.mem_append] at hv
        rcases hv with hv | hv
        · exact hdrop v hv
        · simp at hv; subst hv; exact hlt
      · rw [List.take_append_of_le_length hm]
        exact hlast
    · have htake : (p ++ [a]).take (p.length + 1) = p ++ [a] :=
        List.take_of_length_le (by simp)
      refine ⟨p.length + 1, x, by simp, ?_, ?_, ?_⟩
      · rw [List.length_append, List.length_singleton, leafLoop, hget, htake]
        simp [hlt]
      · simp
      · rw [htake]
        intro v hv
        simp at hv
        subst hv
        exact not_lt.mp hlt

/-- The internal-node loop started at the last key never fails and leaves the keys alone; it
stops at an index `m` with every key from `m` on larger than `key` and the key before `m`,
if any, not larger. -/
theorem childLoop_spec (key : Int) (pre : List Int) :
    ∀ (post : List Int), ∃ m, m ≤ pre.length ∧
      childLoop key pre.length (pre ++ post) = ⟨pre ++ post, m, none⟩ ∧
      (∀ v ∈ pre.drop m, key < v) ∧ (∀ v ∈ (pre.take m).getLast?, v ≤ key) := by
  induction pre using List.reverseRecOn with
  | nil =>
    intro post
    exact ⟨0, le_refl _, by simp [childLoop], by simp, by simp⟩
  | append_singleton p a ih =>
    intro post
    have hget : (p ++ [a] ++ post)[p.length]? = some a := by
      rw [List.append_assoc, List.getElem?_append_right (le_refl _)]
      simp
    by_cases hlt : key < a
    · obtain ⟨m, hm, hloop, hdrop, hlast⟩ := ih (a :: post)
      refine ⟨m, by simp; omega, ?_, ?_, ?_⟩
      · rw [List.length_append, List.length_singleton, childLoop, hget]
        simp only [hlt, if_true]
        simpa using hloop
      · intro v hv
        rw [List.drop_append_of_le_length hm, List.mem_append] at hv
        rcases hv with hv | hv
        · exact hdrop v hv
        · simp at hv; subst hv; exact hlt
      · rw [List.take_append_of_le_length hm]
        exact hlast
    · have htake : (p ++ [a]).take (p.length + 1) = p ++ [a] :=
        List.take_of_length_le (by simp)
      refine ⟨p.length + 1, by simp, ?_, ?_, ?_⟩
      · rw [List.length_append, List.length_singleton, childLoop, hget]
        simp [hlt]
      · simp
      · rw [htake]
        intro v hv
        simp at hv
        subst hv
        exact not_lt.mp hlt

/-! ## Unfolding `InsertNonFull` -/

/-- The leaf branch: the key is stored at the index `m` where the leaf loop stops, and the
call then goes on to `n.children[m-1]`. -/
theorem InsertNonFull_leaf (t : Int) (ks : List Int) (cs : List BtreeNode) (key : Int) :
    ∃ m, m ≤ ks.length ∧ (∀ v ∈ ks.drop m, key < v) ∧
      (∀ v ∈ (ks.take m).getLast?, v ≤ key) ∧
      InsertNonFull (.mk t ks cs true) key =
        ⟨.mk t (ks.take m ++ key :: ks.drop m)
            (match m with
              | 0 => cs
              | i + 1 => (insertChild cs i key).1) true,
          match m with
            | 0 => some Panic.indexOutOfRange
            | i + 1 => (insertChild cs i key).2⟩ := by
  obtain ⟨m, y, hm, hloop, hdrop, hlast⟩ := leafLoop_spec key ks 0 []
  refine ⟨m, hm, hdrop, hlast, ?_⟩
  have hst : storeKey (ks.take m ++ y :: (ks.drop m ++ [])) m key
      = some (ks.take m ++ key :: ks.drop m) := by
    have := storeKey_middle (ks.take m) y key (ks.drop m)
    rw [List.length_take, min_eq_left hm] at this
    simpa using this
  rw [InsertNonFull]
  simp only [hloop, hst]
  cases m <;> rfl

/-- The internal branch: the keys are left alone and the call goes on to `n.children[m]`,
`m` being the index where the internal-node loop stops. -/
theorem InsertNonFull_internal (t : Int) (ks : List Int) (cs : List BtreeNode) (key : Int) :
    ∃ m, m ≤ ks.length ∧ (∀ v ∈ ks.drop m, key < v) ∧
      (∀ v ∈ (ks.take m).getLast?, v ≤ key) ∧
      childLoop key ks.length ks = ⟨ks, m, none⟩ ∧
      InsertNonFull (.mk t ks cs false) key =
        ⟨.mk t ks (insertChild cs m key).1 false, (insertChild cs m key).2⟩ := by
  obtain ⟨m, hm, hloop, hdrop, hlast⟩ := childLoop_spec key ks []
  rw [List.append_nil] at hloop
  refine ⟨m, hm, hdrop, hlast, hloop, ?_⟩
  rw [InsertNonFull]
  simp only [hloop]

/-- In a non-decreasing list cut at `m` as the loops cut it, the part before `m` is the keys
`≤ key` and the part from `m` on is the keys `> key`. -/
theorem sorted_cut (ks : List Int) (key : Int) (m : Nat) (hs : ks.Sorted (· ≤ ·))
    (hdrop : ∀ v ∈ ks.drop m, key < v) (hlast : ∀ v ∈ (ks.take m).getLast?, v ≤ key) :
    ks.take m = ks.filter (· ≤ key) ∧ ks.drop m = ks.filter (key < ·) := by
  have htake : ∀ v ∈ ks.take m, v ≤ key := by
    have hs2 : (ks.take m).Sorted (· ≤ ·) := List.Pairwise.sublist (List.take_sublist m ks) hs
    rcases List.eq_nil_or_concat (ks.take m) with h | ⟨q, l, h⟩
    · rw [h]; simp
    · rw [List.concat_eq_append] at h
      rw [h] at hlast hs2 ⊢
      have hl : l ≤ key := hlast l (by simp)
      intro v hv
      rw [List.mem_append] at hv
      rcases hv with hv | hv
      · have := (List.pairwise_append.mp hs2).2.2 v hv l (by simp)
        omega
      · simp at hv; omega
  have hsplit : ks = ks.take m ++ ks.drop m := (List.take_append_drop m ks).symm
  constructor
  · conv_rhs => rw [hsplit, List.filter_append]
    have h1 : (ks.take m).filter (· ≤ key) = ks.take m :=
      List.filter_eq_self.mpr (fun v hv => by simpa using htake v hv)
    have h2 : (ks.drop m).filter (· ≤ key) = [] :=
      List.filter_eq_nil_iff.mpr (fun v hv => by have := hdrop v hv; simp; omega)
    rw [h1, h2, List.append_nil]
  · conv_rhs => rw [hsplit, List.filter_append]
    have h1 : (ks.take m).filter (key < ·) = [] :=
      List.filter_eq_nil_iff.mpr (fun v hv => by have := htake v hv; simp; omega)
    have h2 : (ks.drop m).filter (key < ·) = ks.drop m :=
      List.filter_eq_self.mpr (fun v hv => by simpa using hdrop v hv)
    rw [h1, h2, List.nil_append]

/-- The keys of a leaf after the call, for non-decreasing old keys. -/
theorem leaf_keys_after (t : Int) (ks : List Int) (cs : List BtreeNode) (key : Int)
    (hs : ks.Sorted (· ≤ ·)) :
    (InsertNonFull (.mk t ks cs true) key).node.keys
      = ks.filter (· ≤ key) ++ key :: ks.filter (key < ·) := by
  obtain ⟨m, _, hdrop, hlast, heq⟩ := InsertNonFull_leaf t ks cs key
  obtain ⟨h1, h2⟩ := sorted_cut ks key m hs hdrop hlast
  rw [heq, ← h1, ← h2]
  rfl

/-! ## The `children` slice after the descent -/

theorem insertChild_length (key : Int) :
    ∀ (cs : List BtreeNode) (i : Nat), (insertChild cs i key).1.length = cs.length
  | [], _ => by simp [insertChild]
  | _ :: _, 0 => by simp [insertChild]
  | _ :: cs, i + 1 => by simp [insertChild, insertChild_length key cs i]

theorem insertChild_getElem?_ne (key : Int) :
    ∀ (cs : List BtreeNode) (i j : Nat), j ≠ i → (insertChild cs i key).1[j]? = cs[j]?
  | [], _, _, _ => by simp [insertChild]
  | _ :: _, 0, 0, h => absurd rfl h
  | _ :: _, 0, j + 1, _ => by simp [insertChild]
  | _ :: _, i + 1, 0, _ => by simp [insertChild]
  | _ :: cs, i + 1, j + 1, h => by
    simp only [insertChild, List.getElem?_cons_succ]
    exact insertChild_getElem?_ne key cs i j (fun h2 => h (by rw [h2]))

theorem insertChild_getElem?_eq (key : Int) :
    ∀ (cs : List BtreeNode) (i : Nat),
      (insertChild cs i key).1[i]? = cs[i]?.map (fun c => (InsertNonFull c key).node)
  | [], _ => by simp [insertChild]
  | _ :: _, 0 => by simp [insertChild]
  | _ :: cs, i + 1 => by
    simp only [insertChild, List.getElem?_cons_succ]
    exact insertChild_getElem?_eq key cs i

mutual
/-- The call changes neither the shape of the subtree nor a leaf flag: the leaf depths are
the same after it. -/
theorem leafDepths_InsertNonFull (key : Int) :
    ∀ (n : BtreeNode) (d : Nat), leafDepths (InsertNonFull n key).node d = leafDepths n d
  | .nil, _ => rfl
  | .mk t ks cs true, d => by
    obtain ⟨m, _, _, _, heq⟩ := InsertNonFull_leaf t ks cs key
    rw [heq]
    rfl
  | .mk t ks cs false, d => by
    obtain ⟨m, _, _, _, _, heq⟩ := InsertNonFull_internal t ks cs key
    rw [heq]
    exact leafDepthsAll_insertChild key cs m (d + 1)
/-- The leaf depths below a `children` slice are the same after the descent into one of
its slots. -/
theorem leafDepthsAll_insertChild (key : Int) :
    ∀ (cs : List BtreeNode) (i d : Nat),
      leafDepthsAll (insertChild cs i key).1 d = leafDepthsAll cs d
  | [], _, _ => rfl
  | c :: cs, 0, d => by
    show leafDepths (InsertNonFull c key).node d ++ leafDepthsAll cs d = _
    rw [leafDepths_InsertNonFull key c d]
    rfl
  | c :: cs, i + 1, d => by
    show leafDepths c d ++ leafDepthsAll (insertChild cs i key).1 d = _
    rw [leafDepthsAll_insertChild key cs i d]
    rfl
end

/-! ## In-order traversal -/

theorem keys_sublist_interleave :
    ∀ (cs : List BtreeNode) (ks : List Int), ks.Sublist (interleave cs ks)
  | [], ks => by rw [interleave]
  | c :: cs, [] => List.nil_sublist _
  | c :: cs, k :: ks => by
    rw [interleave]
    exact List.Sublist.trans ((keys_sublist_interleave cs ks).cons₂ k)
      (List.sublist_append_right _ _)

/-- Replacing a middle segment `X` of a non-decreasing list by a non-decreasing permutation
of `key :: X`, where everything before the segment is `≤ key` and everything after it is
`≥ key`. -/
theorem sorted_replace (A X X1 B : List Int) (key : Int)
    (h : (A ++ (X ++ B)).Sorted (· ≤ ·)) (hX1 : X1.Sorted (· ≤ ·))
    (hperm : X1.Perm (key :: X)) (hA : ∀ a ∈ A, a ≤ key) (hB : ∀ b ∈ B, key ≤ b) :
    (A ++ (X1 ++ B)).Sorted (· ≤ ·) ∧ (A ++ (X1 ++ B)).Perm (key :: (A ++ (X ++ B))) := by
  obtain ⟨hsA, hsXB, hAXB⟩ := List.pairwise_append.mp h
  obtain ⟨_, hsB, hXB⟩ := List.pairwise_append.mp hsXB
  have hmem : ∀ x ∈ X1, x = key ∨ x ∈ X := fun x hx => List.mem_cons.mp (hperm.mem_iff.mp hx)
  constructor
  · refine List.pairwise_append.mpr ⟨hsA, List.pairwise_append.mpr ⟨hX1, hsB, ?_⟩, ?_⟩
    · intro x hx b hb
      rcases hmem x hx with rfl | hx
      · exact hB b hb
      · exact hXB x hx b hb
    · intro a ha y hy
      rcases List.mem_append.mp hy with hy | hy
      · rcases hmem y hy with rfl | hy
        · exact hA a ha
        · exact hAXB a ha y (List.mem_append_left _ hy)
      · exact hAXB a ha y (List.mem_append_right _ hy)
  · have h1 : (X1 ++ B).Perm (key :: (X ++ B)) := hperm.append_right B
    exact (List.Perm.append_left A h1).trans List.perm_middle

mutual
/-- In a well-formed subtree the ordering invariant makes the in-order traversal
non-decreasing. -/
theorem inorder_sorted_of_ordered :
    ∀ (n : BtreeNode), WellFormed n → Ordered n → (inorder n).Sorted (· ≤ ·)
  | .nil, hwf, _ => absurd hwf (by simp [WellFormed])
  | .mk t ks cs true, hwf, hord => by
    have hcs : cs = [] := by simpa [WellFormed] using hwf
    subst hcs
    have : ks.Sorted (· ≤ ·) := by
      have := hord
      rw [Ordered] at this
      exact this.1
    simpa [inorder, interleave] using this
  | .mk t ks cs false, hwf, hord => by
    rw [WellFormed] at hwf
    rw [Ordered] at hord
    rw [inorder]
    exact (interleave_sorted_of_ordered cs ks none hwf.1 hwf.2 hord.2 hord.1
      (fun k _ l hl => by simp at hl)).1
/-- The list form of `inorder_sorted_of_ordered`, with the lower separator `lo`. -/
theorem interleave_sorted_of_ordered :
    ∀ (cs : List BtreeNode) (ks : List Int) (lo : Option Int),
      cs.length = ks.length + 1 → WellFormedAll cs → OrderedChildren cs ks lo →
      ks.Sorted (· ≤ ·) → (∀ k ∈ ks, aboveSep lo k) →
      (interleave cs ks).Sorted (· ≤ ·) ∧ ∀ x ∈ interleave cs ks, aboveSep lo x
  | [], ks, _, hlen, _, _, _, _ => by simp at hlen
  | c :: cs, [], lo, hlen, hwf, hord, _, _ => by
    have hcs : cs = [] := by simpa using hlen
    subst hcs
    rw [WellFormedAll] at hwf
    rw [OrderedChildren] at hord
    have hs := inorder_sorted_of_ordered c hwf.1 hord.1
    simp only [interleave, List.append_nil]
    exact ⟨hs, hord.2.1⟩
  | c :: cs, k :: ks, lo, hlen, hwf, hord, hs, hlo => by
    rw [WellFormedAll] at hwf
    rw [OrderedChildren] at hord
    obtain ⟨hk, hsks⟩ := List.pairwise_cons.mp hs
    have hc := inorder_sorted_of_ordered c hwf.1 hord.1
    obtain ⟨hrest, hrestlo⟩ := interleave_sorted_of_ordered cs ks (some k)
      (by simpa using hlen) hwf.2 hord.2.2 hsks
      (fun k2 hk2 l hl => by
        have : l = k := by simpa using hl.symm
        subst this
        exact hk k2 hk2)
    have hklo : aboveSep lo k := hlo k (List.mem_cons_self _ _)
    rw [interleave]
    constructor
    · refine List.pairwise_append.mpr ⟨hc, List.pairwise_cons.mpr ⟨?_, hrest⟩, ?_⟩
      · intro b hb
        exact hrestlo b hb k rfl
      · intro a ha b hb
        have hak : a ≤ k := (hord.2.1 a ha).2
        rcases List.mem_cons.mp hb with rfl | hb
        · exact hak
        · exact le_trans hak (hrestlo b hb k rfl)
    · intro x hx
      rcases List.mem_append.mp hx with hx | hx
      · exact (hord.2.1 x hx).1
      · rcases List.mem_cons.mp hx with rfl | hx
        · exact hklo
        · intro l hl
          exact le_trans (hklo l hl) (hrestlo x hx k rfl)
end

/-- A leaf without children after the call: the keys have changed, nothing else. -/
theorem InsertNonFull_leaf_node (t : Int) (ks : List Int) (key : Int) :
    (InsertNonFull (.mk t ks [] true) key).node
      = .mk t (InsertNonFull (.mk t ks [] true) key).node.keys [] true := by
  obtain ⟨m, _, _, _, heq⟩ := InsertNonFull_leaf t ks [] key
  rw [heq]
  cases m <;> rfl

/-- The keys of a leaf after the call are non-decreasing and a permutation of the old keys
plus `key`, for non-decreasing old keys. -/
theorem leaf_keys_sorted_perm (t : Int) (ks : List Int) (cs : List BtreeNode) (key : Int)
    (hs : ks.Sorted (· ≤ ·)) :
    ((InsertNonFull (.mk t ks cs true) key).node.keys).Sorted (· ≤ ·) ∧
      ((InsertNonFull (.mk t ks cs true) key).node.keys).Perm (key :: ks) := by
  obtain ⟨m, hm, hdrop, hlast, heq⟩ := InsertNonFull_leaf t ks cs key
  obtain ⟨h1, h2⟩ := sorted_cut ks key m hs hdrop hlast
  have hform : (InsertNonFull (.mk t ks cs true) key).node.keys
      = ks.take m ++ key :: ks.drop m := by rw [heq]; rfl
  rw [hform]
  have hsplit : (ks.take m ++ ([] ++ ks.drop m)).Sorted (· ≤ ·) := by
    rw [List.nil_append, List.take_append_drop]
    exact hs
  have := sorted_replace (ks.take m) [] [key] (ks.drop m) key hsplit
    (List.sorted_singleton key) (List.Perm.refl _)
    (fun a ha => by rw [h1] at ha; simpa using (List.mem_filter.mp ha).2)
    (fun b hb => le_of_lt (hdrop b hb))
  simpa [List.take_append_drop] using this

mutual
/-- On a well-formed subtree with a non-decreasing in-order traversal, the traversal of the
state after the call is non-decreasing and a permutation of the old one plus `key`. -/
theorem inorder_InsertNonFull (key : Int) :
    ∀ (n : BtreeNode), WellFormed n → (inorder n).Sorted (· ≤ ·) →
      (inorder (InsertNonFull n key).node).Sorted (· ≤ ·) ∧
        (inorder (InsertNonFull n key).node).Perm (key :: inorder n)
  | .nil, hwf, _ => absurd hwf (by simp [WellFormed])
  | .mk t ks cs true, hwf, hs => by
    have hcs : cs = [] := by simpa [WellFormed] using hwf
    subst hcs
    rw [InsertNonFull_leaf_node]
    simp only [inorder, interleave] at hs ⊢
    exact leaf_keys_sorted_perm t ks [] key hs
  | .mk t ks cs false, hwf, hs => by
    rw [WellFormed] at hwf
    rw [inorder] at hs
    obtain ⟨m, hm, hdrop, hlast, _, heq⟩ := InsertNonFull_internal t ks cs key
    have hks : ks.Sorted (· ≤ ·) := List.Pairwise.sublist (keys_sublist_interleave cs ks) hs
    obtain ⟨h1, _⟩ := sorted_cut ks key m hks hdrop hlast
    rw [heq]
    simp only [inorder]
    exact interleave_insertChild key cs ks m hwf.1 hwf.2 hm
      (fun v hv => by rw [h1] at hv; simpa using (List.mem_filter.mp hv).2) hdrop hs
/-- The list form of `inorder_InsertNonFull`: the descent into `children[m]`, where the
keys before `m` are `≤ key` and the keys from `m` on are `> key`. -/
theorem interleave_insertChild (key : Int) :
    ∀ (cs : List BtreeNode) (ks : List Int) (m : Nat),
      cs.length = ks.length + 1 → WellFormedAll cs → m ≤ ks.length →
      (∀ v ∈ ks.take m, v ≤ key) → (∀ v ∈ ks.drop m, key < v) →
      (interleave cs ks).Sorted (· ≤ ·) →
      (interleave (insertChild cs m key).1 ks).Sorted (· ≤ ·) ∧
        (interleave (insertChild cs m key).1 ks).Perm (key :: interleave cs ks)
  | [], ks, _, hlen, _, _, _, _, _ => by simp at hlen
  | c :: cs, [], 0, hlen, hwf, _, _, _, hs => by
    have hcs : cs = [] := by simpa using hlen
    subst hcs
    rw [WellFormedAll] at hwf
    simp only [insertChild, interleave, List.append_nil] at hs ⊢
    exact inorder_InsertNonFull key c hwf.1 hs
  | c :: cs, k :: ks, 0, _, hwf, _, _, hdrop, hs => by
    rw [WellFormedAll] at hwf
    simp only [insertChild, interleave] at hs ⊢
    obtain ⟨hsc, hsrest, _⟩ := List.pairwise_append.mp hs
    obtain ⟨hc1, hc2⟩ := inorder_InsertNonFull key c hwf.1 hsc
    have hkey : key < k := hdrop k (by simp)
    have hB : ∀ b ∈ k :: interleave cs ks, key ≤ b := by
      intro b hb
      rcases List.mem_cons.mp hb with rfl | hb
      · exact le_of_lt hkey
      · exact le_trans (le_of_lt hkey) ((List.pairwise_cons.mp hsrest).1 b hb)
    have := sorted_replace [] (inorder c) _ (k :: interleave cs ks) key
      (by simpa using hs) hc1 hc2 (by simp) hB
    simpa using this
  | c :: cs, [], m + 1, _, _, hm, _, _, _ => by simp at hm
  | c :: cs, k :: ks, m + 1, hlen, hwf, hm, htake, hdrop, hs => by
    rw [WellFormedAll] at hwf
    simp only [insertChild, interleave] at hs ⊢
    obtain ⟨_, hsrest, hcross⟩ := List.pairwise_append.mp hs
    obtain ⟨hkrest, hsX⟩ := List.pairwise_cons.mp hsrest
    have hk : k ≤ key := htake k (by simp)
    obtain ⟨hX1, hX2⟩ := interleave_insertChild key cs ks m (by simpa using hlen) hwf.2
      (by simpa using hm) (fun v hv => htake v (by simp [hv]))
      (fun v hv => hdrop v (by simpa using hv)) hsX
    have hA : ∀ a ∈ inorder c ++ [k], a ≤ key := by
      intro a ha
      rcases List.mem_append.mp ha with ha | ha
      · exact le_trans (hcross a ha k (List.mem_cons_self _ _)) hk
      · have : a = k := by simpa using ha
        rw [this]; exact hk
    have := sorted_replace (inorder c ++ [k]) (interleave cs ks) _ [] key
      (by simpa using hs) hX1 hX2 hA (by simp)
    simpa using this
end

/-! ## How the call ends -/

/-- The call `n.children[i].InsertNonFull(key)` either finds no `children[i]` and fails with an
index out of range, or ends as the call on the child `children[i]` ends. -/
theorem insertChild_panic (key : Int) :
    ∀ (cs : List BtreeNode) (i : Nat),
      (cs[i]? = none ∧ (insertChild cs i key).2 = some Panic.indexOutOfRange) ∨
        ∃ c, cs[i]? = some c ∧ (insertChild cs i key).2 = (InsertNonFull c key).panic
  | [], _ => Or.inl ⟨by simp, rfl⟩
  | c :: _, 0 => Or.inr ⟨c, by simp, rfl⟩
  | _ :: cs, i + 1 => by
    rcases insertChild_panic key cs i with ⟨h1, h2⟩ | ⟨c, h1, h2⟩
    · exact Or.inl ⟨by simpa using h1, by rw [insertChild]; exact h2⟩
    · exact Or.inr ⟨c, by simpa using h1, by rw [insertChild]; exact h2⟩

theorem height_le_heightAll :
    ∀ (cs : List BtreeNode) (i : Nat) (c : BtreeNode), cs[i]? = some c →
      height c ≤ heightAll cs
  | [], _, _, h => by simp at h
  | c0 :: cs, 0, c, h => by
    have : c0 = c := by simpa using h
    subst this
    rw [heightAll]
    exact le_max_left _ _
  | c0 :: cs, i + 1, c, h => by
    have h2 : cs[i]? = some c := by simpa using h
    rw [heightAll]
    exact le_trans (height_le_heightAll cs i c h2) (le_max_right _ _)

/-- One step of the recursion: the call on a node fails at that node with an index out of
range, or ends as the call on one of its children ends. -/
theorem InsertNonFull_step (t : Int) (ks : List Int) (cs : List BtreeNode) (l : Bool)
    (key : Int) :
    (InsertNonFull (.mk t ks cs l) key).panic = some Panic.indexOutOfRange ∨
      ∃ (i : Nat) (c : BtreeNode), cs[i]? = some c ∧ height c < height (.mk t ks cs l) ∧
        (InsertNonFull (.mk t ks cs l) key).panic = (InsertNonFull c key).panic := by
  have hh : ∀ (i : Nat) (c : BtreeNode), cs[i]? = some c →
      height c < height (.mk t ks cs l) := by
    intro i c h
    rw [height]
    exact Nat.lt_succ_of_le (height_le_heightAll cs i c h)
  cases l with
  | true =>
    obtain ⟨m, _, _, _, heq⟩ := InsertNonFull_leaf t ks cs key
    rw [heq]
    cases m with
    | zero => exact Or.inl rfl
    | succ i =>
      rcases insertChild_panic key cs i with ⟨_, h2⟩ | ⟨c, h1, h2⟩
      · exact Or.inl h2
      · exact Or.inr ⟨i, c, h1, hh i c h1, h2⟩
  | false =>
    obtain ⟨m, _, _, _, _, heq⟩ := InsertNonFull_internal t ks cs key
    rw [heq]
    rcases insertChild_panic key cs m with ⟨_, h2⟩ | ⟨c, h1, h2⟩
    · exact Or.inl h2
    · exact Or.inr ⟨m, c, h1, hh m c h1, h2⟩

mutual
/-- Every call of `InsertNonFull` ends in a failure. -/
theorem InsertNonFull_panics (key : Int) :
    ∀ (n : BtreeNode), (InsertNonFull n key).panic = some Panic.indexOutOfRange ∨
      (InsertNonFull n key).panic = some Panic.nilDereference
  | .nil => Or.inr rfl
  | .mk t ks cs true => by
    obtain ⟨m, _, _, _, heq⟩ := InsertNonFull_leaf t ks cs key
    rw [heq]
    cases m with
    | zero => exact Or.inl rfl
    | succ i => exact insertChild_panics key cs i
  | .mk t ks cs false => by
    obtain ⟨m, _, _, _, _, heq⟩ := InsertNonFull_internal t ks cs key
    rw [heq]
    exact insertChild_panics key cs m
/-- Every call `n.children[i].InsertNonFull(key)` ends in a failure. -/
theorem insertChild_panics (key : Int) :
    ∀ (cs : List BtreeNode) (i : Nat),
      (insertChild cs i key).2 = some Panic.indexOutOfRange ∨
        (insertChild cs i key).2 = some Panic.nilDereference
  | [], _ => Or.inl rfl
  | c :: _, 0 => by
    rw [insertChild]
    exact InsertNonFull_panics key c
  | _ :: cs, i + 1 => by
    rw [insertChild]
    exact insertChild_panics key cs i
end

/-- Every call of `Insert` ends in a failure: the one of the `InsertNonFull` it makes, or the
nil dereference at a nil root. -/
theorem Insert_panics (tr : BTREE) (key : Int) :
    (Insert tr key).2 = some Panic.indexOutOfRange ∨
      (Insert tr key).2 = some Panic.nilDereference := by
  obtain ⟨t, root⟩ := tr
  cases root with
  | nil => exact Or.inr rfl
  | mk t0 ks cs l =>
    simp only [Insert]
    exact InsertNonFull_panics key _

/-- A run with at least one `Insert` never reaches `Search`. -/
theorem InsertThenSearch_fails (tr : BTREE) (k0 : Int) (ks : List Int) (k : Int) :
    ∃ p, InsertThenSearch tr (k0 :: ks) k = .error p := by
  have h := Insert_panics tr k0
  rcases hI : Insert tr k0 with ⟨tr1, r⟩
  rw [hI] at h
  rcases h with h | h <;> simp only at h <;> subst h
  · exact ⟨Panic.indexOutOfRange, by simp [InsertThenSearch, InsertAll, hI]⟩
  · exact ⟨Panic.nilDereference, by simp [InsertThenSearch, InsertAll, hI]⟩

/-! ## The claims -/

/-- C1, evaluated at a failing input. The tree of order 2 with root keys `[10]` and the
leaves `[1, 2, 3]` (full) and `[20]` is well-formed, keeps the bound of `2t-1 = 3` keys in
every node and has room in its root; `InsertNonFull(0)` descends into the full leaf without
splitting it and leaves it with the four keys `[0, 1, 2, 3]`. -/
theorem InsertNonFull_overfills_full_child :
    WellFormed (.mk 2 [10] [.mk 2 [1, 2, 3] [] true, .mk 2 [20] [] true] false) ∧
      KeysBounded (.mk 2 [10] [.mk 2 [1, 2, 3] [] true, .mk 2 [20] [] true] false) ∧
      (([10] : List Int).length : Int) ≤ 2 * 2 - 2 ∧
      InsertNonFull (.mk 2 [10] [.mk 2 [1, 2, 3] [] true, .mk 2 [20] [] true] false) 0
        = ⟨.mk 2 [10] [.mk 2 [0, 1, 2, 3] [] true, .mk 2 [20] [] true] false,
            some Panic.indexOutOfRange⟩ ∧
      ¬ KeysBounded (InsertNonFull
        (.mk 2 [10] [.mk 2 [1, 2, 3] [] true, .mk 2 [20] [] true] false) 0).node := by
  refine ⟨by simp [WellFormed, WellFormedAll], by simp [KeysBounded, KeysBoundedAll],
    by decide, rfl, ?_⟩
  have h : (InsertNonFull
      (.mk 2 [10] [.mk 2 [1, 2, 3] [] true, .mk 2 [20] [] true] false) 0).node
      = .mk 2 [10] [.mk 2 [0, 1, 2, 3] [] true, .mk 2 [20] [] true] false := rfl
  rw [h]
  simp [KeysBounded, KeysBoundedAll]

/-- C2, evaluated at a failing input. The node of order 2 without keys whose only child is
the full leaf `[1, 2, 3]`: `SplitCHILD(0)` returns nil and leaves the node as it was, with
no key and one child, the child still holding its three keys. -/
theorem SplitCHILD_leaves_full_child :
    (SplitCHILD (.mk 2 [] [.mk 2 [1, 2, 3] [] true] false) 0).1
        = .mk 2 [] [.mk 2 [1, 2, 3] [] true] false ∧
      (SplitCHILD (.mk 2 [] [.mk 2 [1, 2, 3] [] true] false) 0).2 = .nil ∧
      (SplitCHILD (.mk 2 [] [.mk 2 [1, 2, 3] [] true] false) 0).1.keys.length = 0 ∧
      (SplitCHILD (.mk 2 [] [.mk 2 [1, 2, 3] [] true] false) 0).1.children.length = 1 :=
  ⟨rfl, rfl, rfl, rfl⟩

/-- C3, evaluated at a failing input. On the empty leaf of order 2, `InsertNonFull(10)`
stores the key and then fails with an index out of range at `n.children[-1]`. -/
theorem InsertNonFull_empty_leaf_fails :
    InsertNonFull (.mk 2 [] [] true) 10
        = ⟨.mk 2 [10] [] true, some Panic.indexOutOfRange⟩ ∧
      (InsertNonFull (.mk 2 [] [] true) 10).panic ≠ none :=
  ⟨rfl, by decide⟩

/-- C4. `InsertNonFull` inserts the key and preserves order: for a well-formed subtree that
satisfies the search-tree ordering invariant, the tree state produced by
`InsertNonFull(key)` has an in-order traversal that is non-decreasing and is a permutation
of the old in-order traversal plus `key`, so that `key` is present in the subtree. -/
theorem InsertNonFull_inorder_sorted_perm (n : BtreeNode) (key : Int)
    (hwf : WellFormed n) (hord : Ordered n) :
    (inorder (InsertNonFull n key).node).Sorted (· ≤ ·) ∧
      (inorder (InsertNonFull n key).node).Perm (key :: inorder n) ∧
      key ∈ inorder (InsertNonFull n key).node := by
  obtain ⟨h1, h2⟩ := inorder_InsertNonFull key n hwf (inorder_sorted_of_ordered n hwf hord)
  exact ⟨h1, h2, h2.mem_iff.mpr (List.mem_cons_self _ _)⟩

/-- C4, at a two-level tree of order 2 and the key 12. -/
theorem InsertNonFull_inorder_sorted_perm_witness :
    WellFormed (.mk 2 [10] [.mk 2 [5] [] true, .mk 2 [20] [] true] false) ∧
      Ordered (.mk 2 [10] [.mk 2 [5] [] true, .mk 2 [20] [] true] false) ∧
      inorder (InsertNonFull
        (.mk 2 [10] [.mk 2 [5] [] true, .mk 2 [20] [] true] false) 12).node
        = [5, 10, 12, 20] ∧
      (inorder (InsertNonFull
        (.mk 2 [10] [.mk 2 [5] [] true, .mk 2 [20] [] true] false) 12).node).Sorted (· ≤ ·) :=
  have hwf : WellFormed (.mk 2 [10] [.mk 2 [5] [] true, .mk 2 [20] [] true] false) := by
    simp [WellFormed, WellFormedAll]
  have hord : Ordered (.mk 2 [10] [.mk 2 [5] [] true, .mk 2 [20] [] true] false) := by
    simp [Ordered, OrderedChildren, inorder, interleave, aboveSep]
  ⟨hwf, hord, rfl, (InsertNonFull_inorder_sorted_perm _ 12 hwf hord).1⟩

/-- C5. Leaf key placement is a sorted insertion: for a leaf whose keys are non-decreasing,
the keys after `InsertNonFull` are the old keys `≤ key`, then `key`, then the old keys
`> key`, each in their original order; the result is non-decreasing, one longer, and a
permutation of the old keys plus `key`; and placing 10, 20, 5 in turn into an empty leaf
gives `[5, 10, 20]`. -/
theorem leaf_placement_sorted_insertion (t : Int) (ks : List Int) (cs : List BtreeNode)
    (key : Int) (hs : ks.Sorted (· ≤ ·)) :
    (InsertNonFull (.mk t ks cs true) key).node.keys
        = ks.filter (· ≤ key) ++ key :: ks.filter (key < ·) ∧
      ((InsertNonFull (.mk t ks cs true) key).node.keys).Sorted (· ≤ ·) ∧
      ((InsertNonFull (.mk t ks cs true) key).node.keys).length = ks.length + 1 ∧
      ((InsertNonFull (.mk t ks cs true) key).node.keys).Perm (key :: ks) ∧
      (InsertNonFull (InsertNonFull (InsertNonFull (.mk t [] [] true) 10).node 20).node
        5).node.keys = [5, 10, 20] := by
  obtain ⟨m, hm, hdrop, hlast, heq⟩ := InsertNonFull_leaf t ks cs key
  obtain ⟨h1, h2⟩ := sorted_cut ks key m hs hdrop hlast
  have hkeys := leaf_keys_after t ks cs key hs
  have hform : (InsertNonFull (.mk t ks cs true) key).node.keys
      = ks.take m ++ key :: ks.drop m := by rw [heq]; rfl
  refine ⟨hkeys, ?_, ?_, ?_, rfl⟩
  · rw [hkeys]
    refine List.pairwise_append.mpr ⟨List.Pairwise.sublist (List.filter_sublist ks) hs, ?_, ?_⟩
    · refine List.pairwise_cons.mpr ⟨?_, List.Pairwise.sublist (List.filter_sublist ks) hs⟩
      intro b hb
      have := (List.mem_filter.mp hb).2
      simp at this
      omega
    · intro a ha b hb
      have h3 := (List.mem_filter.mp ha).2
      simp at h3
      rcases List.mem_cons.mp hb with hb | hb
      · omega
      · have h4 := (List.mem_filter.mp hb).2
        simp at h4
        omega
  · rw [hform]
    simp [min_eq_left hm]
    omega
  · rw [hform]
    refine List.perm_middle.trans ?_
    rw [List.take_append_drop]

/-- C5, at the leaf `[10, 20]` of order 2 and the key 5. -/
theorem leaf_placement_sorted_insertion_witness :
    [10, 20].Sorted (· ≤ ·) ∧
      (InsertNonFull (.mk 2 [10, 20] [] true) 5).node.keys = [5, 10, 20] :=
  ⟨by decide, (leaf_placement_sorted_insertion 2 [10, 20] [] 5 (by decide)).1⟩

/-- C6 as stated fails: with the non-decreasing keys `[5, 5]` the key 5 is equal to the
separator `keys[0]`, yet the call descends into `children[2]`, not into `children[0+1]`. -/
theorem child_selection_duplicate_separator :
    [5, 5].Sorted (· ≤ ·) ∧ ([5, 5] : List Int)[0]? = some 5 ∧
      (childLoop 5 2 [5, 5]).iSucc = 2 ∧
      InsertNonFull (.mk 2 [5, 5]
          [.mk 2 [1] [] true, .mk 2 [5] [] true, .mk 2 [9] [] true] false) 5
        = ⟨.mk 2 [5, 5] [.mk 2 [1] [] true, .mk 2 [5] [] true, .mk 2 [5, 9] [] true] false,
            some Panic.indexOutOfRange⟩ ∧
      ¬ (∀ (ks : List Int) (key : Int) (j : Nat), ks.Sorted (· ≤ ·) → ks[j]? = some key →
          (childLoop key ks.length ks).iSucc = j + 1) := by
  refine ⟨by decide, rfl, rfl, rfl, ?_⟩
  intro h
  have := h [5, 5] 5 0 (by decide) rfl
  exact absurd this (by decide)

/-- C6, amended. Child selection in an internal node whose keys are non-decreasing: the
index `i` that `InsertNonFull` descends into is the number of keys `≤ key`; every `keys[j]`
with `j < i` is `≤ key` and every `keys[j]` with `j ≥ i` is `> key`; a key equal to the
separator `keys[j]` is routed to the right of it (`i ≥ j + 1`), and to `children[j+1]` when
`keys[j+1]` is larger than the key or absent. -/
theorem child_selection (t : Int) (ks : List Int) (cs : List BtreeNode) (key : Int)
    (hs : ks.Sorted (· ≤ ·)) :
    (childLoop key ks.length ks).iSucc = ks.countP (· ≤ key) ∧
      InsertNonFull (.mk t ks cs false) key
        = ⟨.mk t ks (insertChild cs (ks.countP (· ≤ key)) key).1 false,
            (insertChild cs (ks.countP (· ≤ key)) key).2⟩ ∧
      (∀ j v, ks[j]? = some v → j < ks.countP (· ≤ key) → v ≤ key) ∧
      (∀ j v, ks[j]? = some v → ks.countP (· ≤ key) ≤ j → key < v) ∧
      (∀ j, ks[j]? = some key → j + 1 ≤ ks.countP (· ≤ key) ∧
        ((∀ v, ks[j + 1]? = some v → key < v) → ks.countP (· ≤ key) = j + 1)) := by
  obtain ⟨m, hm, hdrop, hlast, hloop, heq⟩ := InsertNonFull_internal t ks cs key
  obtain ⟨h1, h2⟩ := sorted_cut ks key m hs hdrop hlast
  have hcount : ks.countP (· ≤ key) = m := by
    rw [List.countP_eq_length_filter, ← h1, List.length_take, min_eq_left hm]
  have hlow : ∀ j v, ks[j]? = some v → j < m → v ≤ key := by
    intro j v hv hj
    have hmem : v ∈ ks.take m :=
      List.mem_iff_getElem?.mpr ⟨j, by rw [List.getElem?_take_of_lt hj]; exact hv⟩
    rw [h1] at hmem
    simpa using (List.mem_filter.mp hmem).2
  have hhigh : ∀ j v, ks[j]? = some v → m ≤ j → key < v := by
    intro j v hv hj
    refine hdrop v (List.mem_iff_getElem?.mpr ⟨j - m, ?_⟩)
    rw [List.getElem?_drop, Nat.add_sub_cancel' hj]
    exact hv
  rw [hcount]
  refine ⟨by rw [hloop], heq, hlow, hhigh, ?_⟩
  intro j hj
  have h3 : j + 1 ≤ m := by
    by_contra hcon
    have := hhigh j key hj (by omega)
    omega
  refine ⟨h3, fun hnext => ?_⟩
  by_contra hne
  have hlt : j + 1 < m := by omega
  have hlen : j + 1 < ks.length := by omega
  have hget : ks[j + 1]? = some ks[j + 1] := List.getElem?_eq_getElem hlen
  have h4 := hnext _ hget
  have h5 := hlow _ _ hget hlt
  omega

/-- C6 amended, at the keys `[10, 20, 30]` and the key 20. -/
theorem child_selection_witness :
    [10, 20, 30].Sorted (· ≤ ·) ∧ (childLoop 20 3 [10, 20, 30]).iSucc = 2 :=
  ⟨by decide, (child_selection 2 [10, 20, 30] [] 20 (by decide)).1⟩

/-- C7 as stated fails: the leaf `[5]` has strictly increasing keys, and after
`InsertNonFull(5)` its keys are `[5, 5]`. -/
theorem leaf_duplicate_not_strict :
    [5].Sorted (· < ·) ∧
      (InsertNonFull (.mk 2 [5] [] true) 5).node.keys = [5, 5] ∧
      ¬ ((InsertNonFull (.mk 2 [5] [] true) 5).node.keys).Sorted (· < ·) := by
  refine ⟨by decide, rfl, ?_⟩
  have h : (InsertNonFull (.mk 2 [5] [] true) 5).node.keys = [5, 5] := rfl
  rw [h]
  decide

/-- C7, amended. For a leaf whose keys are strictly increasing and a key that is not
already present in the leaf, the keys after `InsertNonFull` are strictly increasing. -/
theorem leaf_keys_strictly_increasing (t : Int) (ks : List Int) (cs : List BtreeNode)
    (key : Int) (hs : ks.Sorted (· < ·)) (hnew : key ∉ ks) :
    ((InsertNonFull (.mk t ks cs true) key).node.keys).Sorted (· < ·) := by
  have hle : ks.Sorted (· ≤ ·) := List.Pairwise.imp (fun h => le_of_lt h) hs
  rw [leaf_keys_after t ks cs key hle]
  refine List.pairwise_append.mpr ⟨List.Pairwise.sublist (List.filter_sublist ks) hs, ?_, ?_⟩
  · refine List.pairwise_cons.mpr ⟨?_, List.Pairwise.sublist (List.filter_sublist ks) hs⟩
    intro b hb
    simpa using (List.mem_filter.mp hb).2
  · intro a ha b hb
    have h3 := (List.mem_filter.mp ha).2
    simp at h3
    have h5 : a ≠ key := fun h => hnew (h ▸ (List.mem_filter.mp ha).1)
    rcases List.mem_cons.mp hb with hb | hb
    · omega
    · have h4 := (List.mem_filter.mp hb).2
      simp at h4
      omega

/-- C7 amended, at the leaf `[10, 20]` and the new key 15. -/
theorem leaf_keys_strictly_increasing_witness :
    [10, 20].Sorted (· < ·) ∧ (15 : Int) ∉ [10, 20] ∧
      ((InsertNonFull (.mk 2 [10, 20] [] true) 15).node.keys).Sorted (· < ·) :=
  ⟨by decide, by decide,
    leaf_keys_strictly_increasing 2 [10, 20] [] 15 (by decide) (by decide)⟩

/-- C8. Balance is preserved: for a well-formed subtree in which all leaves are at the same
depth, all leaves are still at the same depth in the tree state that `InsertNonFull`
produces. -/
theorem balance_preserved (n : BtreeNode) (key : Int) (_hwf : WellFormed n)
    (hbal : Balanced n) : Balanced (InsertNonFull n key).node := by
  unfold Balanced at hbal ⊢
  rw [leafDepths_InsertNonFull key n 0]
  exact hbal

/-- C8, at a two-level tree of order 2 and the key 12. -/
theorem balance_preserved_witness :
    WellFormed (.mk 2 [10] [.mk 2 [5] [] true, .mk 2 [20] [] true] false) ∧
      Balanced (.mk 2 [10] [.mk 2 [5] [] true, .mk 2 [20] [] true] false) ∧
      Balanced (InsertNonFull
        (.mk 2 [10] [.mk 2 [5] [] true, .mk 2 [20] [] true] false) 12).node :=
  have hwf : WellFormed (.mk 2 [10] [.mk 2 [5] [] true, .mk 2 [20] [] true] false) := by
    simp [WellFormed, WellFormedAll]
  have hbal : Balanced (.mk 2 [10] [.mk 2 [5] [] true, .mk 2 [20] [] true] false) := by
    simp [Balanced, leafDepths, leafDepthsAll]
  ⟨hwf, hbal, balance_preserved _ 12 hwf hbal⟩

/-- C9. `InsertNonFull` on an internal node leaves the node's keys, leaf flag, order and
number of children unchanged, and leaves every child other than the selected `children[i]`
as it was; the selected child is replaced by its own state after the recursive call. -/
theorem internal_frame (t : Int) (ks : List Int) (cs : List BtreeNode) (key : Int) :
    (InsertNonFull (.mk t ks cs false) key).node.keys = ks ∧
      (InsertNonFull (.mk t ks cs false) key).node.isLeaf = false ∧
      (InsertNonFull (.mk t ks cs false) key).node.t = t ∧
      (InsertNonFull (.mk t ks cs false) key).node.children.length = cs.length ∧
      (∀ j, j ≠ (childLoop key ks.length ks).iSucc →
        (InsertNonFull (.mk t ks cs false) key).node.children[j]? = cs[j]?) ∧
      (InsertNonFull (.mk t ks cs false) key).node.children[(childLoop key ks.length ks).iSucc]?
        = cs[(childLoop key ks.length ks).iSucc]?.map (fun c => (InsertNonFull c key).node) := by
  obtain ⟨m, _, _, _, hloop, heq⟩ := InsertNonFull_internal t ks cs key
  rw [heq, hloop]
  exact ⟨rfl, rfl, rfl, insertChild_length key cs m,
    fun j hj => insertChild_getElem?_ne key cs m j hj, insertChild_getElem?_eq key cs m⟩

/-- C10. `NewBTREENode(t, isLeaf)` returns, whatever the receiver, a node of order `t` with
leaf flag `isLeaf`, no keys and no children. -/
theorem NewBTREENode_fields (n : BtreeNode) (t : Int) (isLeaf : Bool) :
    (NewBTREENode n t isLeaf).t = t ∧ (NewBTREENode n t isLeaf).isLeaf = isLeaf ∧
      (NewBTREENode n t isLeaf).keys = [] ∧ (NewBTREENode n t isLeaf).children = [] ∧
      NewBTREENode n t isLeaf ≠ .nil ∧
      ∀ n2 : BtreeNode, NewBTREENode n2 t isLeaf = NewBTREENode n t isLeaf :=
  ⟨rfl, rfl, rfl, rfl, fun h => BtreeNode.noConfusion h, fun _ => rfl⟩

/-- C11, evaluated at a failing input. On the fresh tree of order 2, `Insert(10)` stores the
key in the root leaf and ends in the index-out-of-range failure of `InsertNonFull`, so the
program `Insert(10); Search(10)` ends in that failure and `Search` reports nothing. -/
theorem Insert_then_Search_fails :
    NewBTREE 2 = some ⟨2, .mk 2 [] [] true⟩ ∧
      Insert ⟨2, .mk 2 [] [] true⟩ 10
        = (⟨2, .mk 2 [10] [] true⟩, some Panic.indexOutOfRange) ∧
      InsertThenSearch ⟨2, .mk 2 [] [] true⟩ [10] 10 = .error Panic.indexOutOfRange ∧
      InsertThenSearch ⟨2, .mk 2 [] [] true⟩ [10] 10 ≠ .ok true := by
  have h : InsertThenSearch ⟨2, .mk 2 [] [] true⟩ [10] 10 = .error Panic.indexOutOfRange := rfl
  refine ⟨rfl, rfl, h, ?_⟩
  rw [h]
  exact fun h2 => Except.noConfusion h2

/-- C12. Leaf fall-through: on a leaf whose `children` is empty, `InsertNonFull(key)` places
the key (at the index `m` where the scan from the right stops, the old keys from `m` on
being larger than `key`), leaves everything else as it was, and ends in an
index-out-of-range failure instead of returning. -/
theorem leaf_fall_through (t : Int) (ks : List Int) (key : Int) :
    ∃ m, m ≤ ks.length ∧ (∀ v ∈ ks.drop m, key < v) ∧
      InsertNonFull (.mk t ks [] true) key
        = ⟨.mk t (ks.take m ++ key :: ks.drop m) [] true, some Panic.indexOutOfRange⟩ ∧
      (InsertNonFull (.mk t ks [] true) key).panic ≠ none := by
  obtain ⟨m, hm, hdrop, _, heq⟩ := InsertNonFull_leaf t ks [] key
  have h : InsertNonFull (.mk t ks [] true) key
      = ⟨.mk t (ks.take m ++ key :: ks.drop m) [] true, some Panic.indexOutOfRange⟩ := by
    rw [heq]
    cases m <;> rfl
  refine ⟨m, hm, hdrop, h, ?_⟩
  rw [h]
  exact fun h2 => Option.noConfusion h2

/-- C13. `SplitCHILD` is a stub: for every node and every index it returns nil and leaves
the node, with its keys, children, leaf flag, order and every descendant, as it was. -/
theorem SplitCHILD_stub (n : BtreeNode) (i : Int) :
    (SplitCHILD n i).2 = .nil ∧ (SplitCHILD n i).1 = n ∧
      (SplitCHILD n i).1.keys = n.keys ∧ (SplitCHILD n i).1.children = n.children ∧
      (SplitCHILD n i).1.isLeaf = n.isLeaf ∧ (SplitCHILD n i).1.t = n.t :=
  ⟨rfl, rfl, rfl, rfl, rfl, rfl⟩

/-- C14. `InsertNonFull` never returns normally: on every node tree and every key the call
(a total function, so the recursion terminates) ends in an index-out-of-range or a
nil-dereference failure; and a call on a node either fails at that node or ends as the call
on one of its children, a strictly lower subtree, ends. -/
theorem InsertNonFull_never_returns (n : BtreeNode) (key : Int) :
    ((InsertNonFull n key).panic = some Panic.indexOutOfRange ∨
        (InsertNonFull n key).panic = some Panic.nilDereference) ∧
      (InsertNonFull n key).panic ≠ none ∧
      (n = .nil ∨ (InsertNonFull n key).panic = some Panic.indexOutOfRange ∨
        ∃ (i : Nat) (c : BtreeNode), n.children[i]? = some c ∧ height c < height n ∧
          (InsertNonFull n key).panic = (InsertNonFull c key).panic) := by
  have h := InsertNonFull_panics key n
  refine ⟨h, ?_, ?_⟩
  · rcases h with h | h <;> rw [h] <;> exact fun h2 => Option.noConfusion h2
  · cases n with
    | nil => exact Or.inl rfl
    | mk t ks cs l => exact Or.inr (InsertNonFull_step t ks cs l key)

end BTree
